import Mathlib

/-!
Verification of the smart-heater schedule builder and its collaborators.

Shallow embedding conventions:
* Timestamps (Python `datetime`) are total minute counts (`Int`) since the
  epoch 1970-01-01 00:00, which was a Thursday (`weekday() = 3` in Python,
  Monday = 0).  `timedelta(minutes=m)` is the integer `m`.
* Python's `sorted` is a stable sort; it is modelled by `List.insertionSort`
  with a reflexive `≤`-style key relation, which Mathlib's own stability
  example shows is stable, so the two agree on every input.
* The system UTC offset read from `time.timezone`/`time.altzone` and the
  market-timezone offset used by `pytz` are environment inputs; they are
  passed as explicit integer-minute parameters (`off`, `marketOff`).
* Exceptions are modelled with `Except`; the error value of
  `add_heating_slice` also carries the state of `self.sched` at raise time
  so that error atomicity is expressible.
-/

/-- Event kinds: `ScheduleBuilder.ON_EVENT = 0`, `ScheduleBuilder.OFF_EVENT = 1`
(`manage.EventType` uses the same two values). The integers are only ever
compared for equality, so a two-variant type is a faithful rendering. -/
inductive EventType where
  | on : EventType
  | off : EventType
deriving DecidableEq, Repr

/-- A schedule entry `(event_type, event_time)` as stored in
`ScheduleBuilder.sched`. -/
abbrev Event := EventType × Int

/-- Key-based comparison used to model Python `sorted(xs, key=f)`. -/
def byKeyLE (f : α → Int) (a b : α) : Prop := f a ≤ f b

instance (f : α → Int) : DecidableRel (byKeyLE f) :=
  fun a b => inferInstanceAs (Decidable (f a ≤ f b))

instance (f : α → Int) : IsTotal α (byKeyLE f) :=
  ⟨fun a b => Int.le_total (f a) (f b)⟩

instance (f : α → Int) : IsTrans α (byKeyLE f) :=
  ⟨fun _ _ _ h1 h2 => le_trans h1 h2⟩

/- ===== src/src/util.py ===== -/

/-- Embeds `util.plus_hour`: add one hour to a datetime. -/
def plus_hour (date_time : Int) : Int := date_time + 60

/-- Embeds `util.hours_contiguous`:
`first_start < second_start < first_start + timedelta(hours=1, minutes=1)`. -/
def hours_contiguous (first_start second_start : Int) : Bool :=
  decide (first_start < second_start) &&
    decide (second_start < first_start + 61)

/-- Embeds `datetime.hour` of a minute-count timestamp (floor division as in Python). -/
def hourOf (t : Int) : Int := (t.fdiv 60).emod 24

/-- Embeds `util.same_hour`:
`a != b and b - a < timedelta(minutes=60) and (b - timedelta(minutes=1)).hour == a.hour`. -/
def same_hour (a b : Int) : Bool :=
  decide (a ≠ b) && decide (b - a < 60) && decide (hourOf (b - 1) = hourOf a)

/-- Embeds `util.utc_to_system_time`: adds the system UTC offset
(`-[time.timezone, time.altzone][time.daylight]` seconds); `off` is that
offset in minutes (local = UTC + `off`). -/
def utc_to_system_time (utc_datetime off : Int) : Int := utc_datetime + off

/-- Embeds `util.system_time_to_utc`: the inverse conversion. -/
def system_time_to_utc (sys_datetime off : Int) : Int := sys_datetime - off

/-- Embeds `util.market_time_to_utc`: `pytz` market-timezone conversion, with the
market UTC offset (minutes) passed explicitly (market = UTC + `marketOff`). -/
def market_time_to_utc (market_time marketOff : Int) : Int :=
  market_time - marketOff

/-- Python `datetime.weekday()` of a minute-count timestamp (Monday = 0;
minute 0 is Thursday 1970-01-01, weekday 3). -/
def weekday (t : Int) : Int := (t.fdiv 1440 + 3).emod 7

/-- Civil midnight (00:00) of the calendar day containing `t`. -/
def midnightOf (t : Int) : Int := t.fdiv 1440 * 1440

/- ===== src/src/schedule.py : ScheduleBuilder ===== -/

/-- The two duplicate-entry exceptions raised by
`ScheduleBuilder.add_heating_slice`. -/
inductive AddError where
  | sliceBeforeOff : AddError
  | sliceAfterOn : AddError
deriving DecidableEq, Repr

/-- The loop body of `ScheduleBuilder.add_heating_slice`: scan
`enumerate(self.sched)` (already-scanned prefix `pre`, remainder `rest`);
on the first contiguity hit either mutate that entry in place and break, or
raise; if the loop completes, append the new ON/OFF pair (`for ... else`).
The error value carries the state of `self.sched` at raise time. -/
def addSliceLoop (start_time num_mins : Int) :
    List Event → List Event → Except (AddError × List Event) (List Event)
  | pre, [] => .ok (pre ++ [(EventType.on, start_time), (EventType.off, start_time + num_mins)])
  | pre, (event_type, event_time) :: rest =>
    if hours_contiguous start_time event_time then
      if event_type = EventType.on then
        .ok (pre ++ (EventType.on, event_time - num_mins) :: rest)
      else
        .error (AddError.sliceBeforeOff, pre ++ (event_type, event_time) :: rest)
    else if hours_contiguous event_time (plus_hour start_time) then
      if event_type = EventType.off then
        .ok (pre ++ (EventType.off, event_time + num_mins) :: rest)
      else
        .error (AddError.sliceAfterOn, pre ++ (event_type, event_time) :: rest)
    else
      addSliceLoop start_time num_mins (pre ++ [(event_type, event_time)]) rest

/-- Embeds `ScheduleBuilder.add_heating_slice(start_time, num_mins)` acting on
`self.sched`; `.ok` is the schedule after the call, `.error` carries the
exception and the schedule at raise time. -/
def add_heating_slice (sched : List Event) (start_time num_mins : Int) :
    Except (AddError × List Event) (List Event) :=
  addSliceLoop start_time num_mins [] sched

/-- A sequence of `add_heating_slice` calls, stopping at the first raise. -/
def addSeq (sched : List Event) :
    List (Int × Int) → Except (AddError × List Event) (List Event)
  | [] => .ok sched
  | (s, n) :: rest =>
    match add_heating_slice sched s n with
    | .ok sched2 => addSeq sched2 rest
    | .error e => .error e

/-- Embeds `sorted(self.sched, key=lambda x: x[1])` (stable). -/
def sortSched (sched : List Event) : List Event :=
  List.insertionSort (byKeyLE (fun e : Event => e.2)) sched

/-- The two sanity-check exceptions raised by `ScheduleBuilder.upload`. -/
inductive UploadError where
  | notStartOn : UploadError
  | notEndOff : UploadError
deriving DecidableEq, Repr

/-- Embeds `ScheduleBuilder.upload` (src/src/schedule.py lines 157-182): early
return on an empty schedule, sort, sanity checks (both raised before the
upload loop runs), then one `AtCmdWrapper.upload_command` per event with the
market-to-UTC converted time.  `.ok` holds the submitted command list in
order; `.error` means the exception was raised and no command submitted. -/
def upload (sched : List Event) (marketOff : Int) :
    Except UploadError (List (EventType × Int)) :=
  if sched.length = 0 then .ok []
  else
    match sortSched sched with
    | [] => .ok []
    | first :: rest =>
      if first.1 = EventType.on then
        if ((first :: rest).getLast (List.cons_ne_nil _ _)).1 = EventType.off then
          .ok ((first :: rest).map
            (fun e => (e.1, market_time_to_utc e.2 marketOff)))
        else .error UploadError.notEndOff
      else .error UploadError.notStartOn

/- ===== src/src/manage.py ===== -/

/-- Embeds `manage.AtQueueMember`: `(id, dt, queue, action)`.  `dt` is the UTC
timestamp produced by `from_queue_line` (which applies
`util.system_time_to_utc` to the parsed listing time); `action` is `None`
until `from_queue` assigns it. -/
structure AtQueueMember where
  id : Nat
  dt : Int
  queue : String
  action : Option EventType
deriving DecidableEq, Repr

/-- The mutation loop `for i, member in enumerate(reversed(members))` of
`AtQueueMember.from_queue`, acting on the reversed list with running index
`i`: even `i` sets OFF, odd `i` sets ON. -/
def assignRev : Nat → List AtQueueMember → List AtQueueMember
  | _, [] => []
  | i, m :: rest =>
    { m with action := some (if i % 2 = 0 then EventType.off else EventType.on) }
      :: assignRev (i + 1) rest

/-- Applying `assignRev` the way the source does: iterate the reversed list,
then read the (mutated-in-place) members back in ascending order. -/
def assignActions (members : List AtQueueMember) : List AtQueueMember :=
  (assignRev 0 members.reverse).reverse

/-- Embeds `AtQueueMember.from_queue(queue)`: keep the listed members whose
queue-tag matches, sort ascending by timestamp (`sorted`, stable), then
assign ON/OFF polarity counting backward from the most recent member.  The
`at -l` subprocess listing, already parsed by `from_queue_line` into typed
members, is the `raw` input. -/
def from_queue (queue : String) (raw : List AtQueueMember) : List AtQueueMember :=
  assignActions
    (List.insertionSort (byKeyLE AtQueueMember.dt)
      (raw.filter (fun m => m.queue == queue)))

/-- An operation submitted to the external `at` queue. -/
inductive QueueOp where
  | remove : Nat → QueueOp
  | insert : EventType → Int → QueueOp
deriving DecidableEq, Repr

/-- Embeds `AtWrapper.clear_queue_from(queue, dt)`: converts the given UTC `dt` to
system time (`util.utc_to_system_time`, offset `off` minutes) and issues
one `atrm` per member of `from_queue(queue)` whose `dt` field is `>=` that
converted threshold.  Returns the removal commands in issue order. -/
def clear_queue_from (queue : String) (raw : List AtQueueMember)
    (dt off : Int) : List QueueOp :=
  ((from_queue queue raw).filter
      (fun mem => decide (utc_to_system_time dt off ≤ mem.dt))).map
    (fun mem => QueueOp.remove mem.id)

/- ===== src/src/fetch.py : PriceData ===== -/

/-- The unhandled exception of `PriceData.finalize` on an empty list
(`self.data[0]` raises `IndexError`). -/
inductive FinalizeError where
  | indexError : FinalizeError
deriving DecidableEq, Repr

/-- Embeds `PriceData.finalize`: sort `self.data` ascending by price (stable),
then set `self.weekday` from the first (cheapest) item's timestamp.
Returns the sorted data and the weekday, or the `IndexError` raised by
`self.data[0]` when the list is empty.  Prices enter only through `<=`
comparisons, so they are embedded as integers (e.g. fixed-point values). -/
def finalize (data : List (Int × Int)) :
    Except FinalizeError (List (Int × Int) × Int) :=
  match List.insertionSort (byKeyLE (fun p : Int × Int => p.2)) data with
  | [] => .error FinalizeError.indexError
  | x :: rest => .ok (x :: rest, weekday x.1)

/-- One row of the Nordpool price tree: the `IsExtraRow` flag, the row's
`StartTime`, and its columns as `(Name, Value)` pairs. -/
structure NordRow where
  isExtraRow : Bool
  startTime : Int
  columns : List (String × Int)
deriving DecidableEq, Repr

/-- Embeds `PriceData.from_nordpool(tree, region_code)`: for each row and column,
skip columns whose lower-cased name differs from the lower-cased region
code, add a `(StartTime, Value)` item when the row is not an extra row,
then call `finalize`. -/
def from_nordpool (tree : List NordRow) (region_code : String) :
    Except FinalizeError (List (Int × Int) × Int) :=
  finalize (tree.flatMap (fun row =>
    row.columns.filterMap (fun column =>
      if column.1.toLower == region_code.toLower && !row.isExtraRow then
        some (row.startTime, column.2)
      else none)))

/- ===== Parts of the repository referenced from src/ but absent from it ===== -/

/-- Modelled from the spec: `ScheduleBuilder.retrieve_sched`, called by
`do_fetch` (src/src/fetch.py line 108) but absent from src/src/schedule.py.
Per spec section 4.1, the initial schedule is the queue reconstruction of
`from_queue` for the session's queue-tag; if the chronologically earliest
resulting event is OFF it is discarded, all other events kept unchanged. -/
def retrieve_sched (queue : String) (raw : List AtQueueMember) :
    List AtQueueMember :=
  match from_queue queue raw with
  | [] => []
  | m :: rest => if m.action = some EventType.off then rest else m :: rest

/-- Modelled from the spec: the `ScheduleBuilder.upload` that performs the
same-day clear (spec section 4.2) is absent from src/src/schedule.py, which
holds an older upload without queue clearing.  Steps, per the spec: empty
no-op; sort; validate ON-first/OFF-last; `day_start` = civil midnight, in
market time, of the date of the first event, converted to UTC; clear the
queue-tag from `day_start` via `AtWrapper.clear_queue_from` (embedded above
from src/src/manage.py); then insert every event with its market-to-UTC
converted timestamp.  Returns the external-queue operations in issue
order. -/
def upload_with_clear (queue : String) (raw : List AtQueueMember)
    (sched : List Event) (off marketOff : Int) :
    Except UploadError (List QueueOp) :=
  if sched.length = 0 then .ok []
  else
    match sortSched sched with
    | [] => .ok []
    | first :: rest =>
      if first.1 = EventType.on then
        if ((first :: rest).getLast (List.cons_ne_nil _ _)).1 = EventType.off then
          .ok (clear_queue_from queue raw
                (market_time_to_utc (midnightOf first.2) marketOff) off ++
              (first :: rest).map
                (fun e => QueueOp.insert e.1 (market_time_to_utc e.2 marketOff)))
        else .error UploadError.notEndOff
      else .error UploadError.notStartOn

/- ===== Theorems ===== -/

theorem addSliceLoop_error_state (start_time num_mins : Int) :
    ∀ (rest pre : List Event) (e : AddError × List Event),
      addSliceLoop start_time num_mins pre rest = .error e → e.2 = pre ++ rest := by
  intro rest
  induction rest with
  | nil =>
    intro pre e h
    simp [addSliceLoop] at h
  | cons x xs ih =>
    intro pre e h
    obtain ⟨et, t⟩ := x
    rw [addSliceLoop] at h
    split_ifs at h with h1 h2 h3 h4 <;>
      first
        | (have h' := Except.error.inj h
           subst h'
           rfl)
        | simp at h
        | (have h' := ih (pre ++ [(et, t)]) e h
           simpa using h')

/-- Claim C9: whenever `add_heating_slice` raises a duplicate-entry
exception, `self.sched` is exactly the same as before the call: the failed
insertion mutates no existing event and appends nothing. -/
theorem add_heating_slice_error_atomic (sched : List Event)
    (start_time num_mins : Int) (e : AddError × List Event)
    (h : add_heating_slice sched start_time num_mins = .error e) :
    e.2 = sched := by
  simpa using addSliceLoop_error_state start_time num_mins sched [] e h

/-- Witness for claim C9 at a concrete raising call: re-adding the slice of
hour 0 to the schedule it already produced raises, with the schedule
unchanged. -/
theorem add_heating_slice_error_atomic_w :
    add_heating_slice [(EventType.on, 0), (EventType.off, 60)] 0 60 =
      .error (AddError.sliceAfterOn, [(EventType.on, 0), (EventType.off, 60)]) ∧
    ((AddError.sliceAfterOn, [(EventType.on, 0), (EventType.off, 60)]) :
        AddError × List Event).2 = [(EventType.on, 0), (EventType.off, 60)] :=
  ⟨rfl, add_heating_slice_error_atomic _ 0 60 _ rfl⟩

/-- Claim C1 (code_bug evaluation): the hour-aligned full-hour slice
sequence for hours 3, 5, 4 (all `num_mins = 60`) completes without raising
but leaves two events sharing timestamp 300 (05:00), violating the
distinct-timestamp half of the invariant. -/
theorem add_heating_slice_alternation_violation :
    addSeq [] [(180, 60), (300, 60), (240, 60)] =
      .ok [(EventType.on, 180), (EventType.off, 300),
           (EventType.on, 300), (EventType.off, 360)] ∧
    ¬ List.Pairwise (fun a b : Event => a.2 ≠ b.2)
      (sortSched [(EventType.on, 180), (EventType.off, 300),
                  (EventType.on, 300), (EventType.off, 360)]) := by
  exact ⟨rfl, by decide⟩

/-- Claim C2 (code_bug evaluation): adding the full-hour slices for hours
0, 2, 1 in that order (one of the orders named by the claim and by
`test_schedule_elide_both`) does not coalesce to the single pair
`[(ON,0),(OFF,180)]`: the junction at minute 120 is left as an unmerged
OFF/ON pair. -/
theorem add_heating_slice_order_dependent :
    addSeq [] [(0, 60), (120, 60), (60, 60)] =
      .ok [(EventType.on, 0), (EventType.off, 120),
           (EventType.on, 120), (EventType.off, 180)] ∧
    sortSched [(EventType.on, 0), (EventType.off, 120),
               (EventType.on, 120), (EventType.off, 180)] ≠
      [(EventType.on, 0), (EventType.off, 180)] := by
  exact ⟨rfl, by decide⟩

/-- Claim C3 (code_bug evaluation): a 15-minute fragment at the hour-0
boundary followed by the full-hour slice at hour 1 (the insertion order of
`test_schedule_frag_coalesce_preceeding`) stays two disjoint pairs instead
of the single pair `[45, 120)`; the opposite insertion order does
coalesce. -/
theorem add_heating_slice_fragment_first_no_coalesce :
    addSeq [] [(0, 15), (60, 60)] =
      .ok [(EventType.on, 0), (EventType.off, 15),
           (EventType.on, 60), (EventType.off, 120)] ∧
    sortSched [(EventType.on, 0), (EventType.off, 15),
               (EventType.on, 60), (EventType.off, 120)] ≠
      [(EventType.on, 45), (EventType.off, 120)] ∧
    addSeq [] [(60, 60), (0, 15)] =
      .ok [(EventType.on, 45), (EventType.off, 120)] := by
  exact ⟨rfl, by decide, rfl⟩

/-- Claim C8 counterexample: at `a` = 00:30 and `b` = 01:15 (minutes 30 and
75), `hours_contiguous` holds but `same_hour` does not, so the two
predicates are not equivalent on `a < b`. -/
theorem same_hour_not_iff_hours_contiguous :
    (30 : Int) < 75 ∧
    ¬ (same_hour 30 75 = true ↔ hours_contiguous 30 75 = true) := by
  exact ⟨by decide, by decide⟩

/-- Claim C8 (amended): for all instants `a < b`, `same_hour a b` implies
`hours_contiguous a b`; the converse direction fails. -/
theorem same_hour_imp_hours_contiguous (a b : Int) (hab : a < b)
    (h : same_hour a b = true) : hours_contiguous a b = true := by
  simp only [same_hour, Bool.and_eq_true, decide_eq_true_eq] at h
  simp only [hours_contiguous, Bool.and_eq_true, decide_eq_true_eq]
  exact ⟨hab, by omega⟩

/-- Witness for amended claim C8: `a` = 00:00, `b` = 00:30. -/
theorem same_hour_imp_hours_contiguous_w :
    (0 : Int) < 30 ∧ same_hour 0 30 = true ∧ hours_contiguous 0 30 = true :=
  ⟨by decide, by decide, same_hour_imp_hours_contiguous 0 30 (by decide) (by decide)⟩

/-- Claim C5: `upload` on a non-empty schedule whose chronologically first
event is not ON, or whose chronologically last event is not OFF, raises the
fatal internal-consistency exception; in this model an `.error` result,
which carries no command list, so no `upload_command` call is made (in the
source both raises precede the upload loop). -/
theorem upload_invalid_sched_errors (sched : List Event) (marketOff : Int)
    (hne : sched ≠ [])
    (hbad : (sortSched sched).head?.map Prod.fst ≠ some EventType.on ∨
      (sortSched sched).getLast?.map Prod.fst ≠ some EventType.off) :
    ∃ err, upload sched marketOff = .error err := by
  have hlen : ¬ sched.length = 0 := fun h => hne (List.eq_nil_of_length_eq_zero h)
  have hs : sortSched sched ≠ [] := by
    intro hc
    apply hne
    apply List.eq_nil_of_length_eq_zero
    have := congrArg List.length hc
    simpa [sortSched] using this
  obtain ⟨first, rest, hfr⟩ := List.exists_cons_of_ne_nil hs
  unfold upload
  rw [if_neg hlen, hfr]
  dsimp only
  by_cases hon : first.1 = EventType.on
  · have hlast : ¬ ((first :: rest).getLast (List.cons_ne_nil _ _)).1 = EventType.off := by
      rcases hbad with hb | hb
      · exact absurd (by rw [hfr]; simp [hon]) hb
      · intro hc
        apply hb
        rw [hfr, List.getLast?_eq_getLast _ (List.cons_ne_nil _ _)]
        simp [hc]
    rw [if_pos hon, if_neg hlast]
    exact ⟨_, rfl⟩
  · rw [if_neg hon]
    exact ⟨_, rfl⟩

/-- Witness for claim C5: the artificial one-event schedule `[(OFF, 0)]`
makes `upload` raise rather than emit commands. -/
theorem upload_invalid_sched_errors_w :
    ([(EventType.off, 0)] : List Event) ≠ [] ∧
    ((sortSched [(EventType.off, 0)]).head?.map Prod.fst ≠ some EventType.on ∨
      (sortSched [(EventType.off, 0)]).getLast?.map Prod.fst ≠ some EventType.off) ∧
    ∃ err, upload [(EventType.off, 0)] 0 = .error err :=
  ⟨by decide, by decide, upload_invalid_sched_errors _ 0 (by decide) (by decide)⟩

theorem assignRev_append (i : Nat) (l : List AtQueueMember) (x : AtQueueMember) :
    assignRev i (l ++ [x]) = assignRev i l ++
      [{ x with action := some (if (i + l.length) % 2 = 0
          then EventType.off else EventType.on) }] := by
  induction l generalizing i with
  | nil => simp [assignRev]
  | cons m rest ih =>
    have hh : i + 1 + rest.length = i + (m :: rest).length := by
      simp only [List.length_cons]
      omega
    calc assignRev i ((m :: rest) ++ [x])
        = { m with action := some (if i % 2 = 0 then EventType.off else EventType.on) }
            :: assignRev (i + 1) (rest ++ [x]) := rfl
      _ = { m with action := some (if i % 2 = 0 then EventType.off else EventType.on) }
            :: (assignRev (i + 1) rest ++
              [{ x with action := some (if (i + 1 + rest.length) % 2 = 0
                  then EventType.off else EventType.on) }]) := by rw [ih]
      _ = assignRev i (m :: rest) ++
            [{ x with action := some (if (i + 1 + rest.length) % 2 = 0
                then EventType.off else EventType.on) }] := rfl
      _ = assignRev i (m :: rest) ++
            [{ x with action := some (if (i + (m :: rest).length) % 2 = 0
                then EventType.off else EventType.on) }] := by rw [hh]

theorem assignActions_cons (m : AtQueueMember) (rest : List AtQueueMember) :
    assignActions (m :: rest) =
      { m with action := some (if rest.length % 2 = 0
          then EventType.off else EventType.on) } :: assignActions rest := by
  unfold assignActions
  rw [List.reverse_cons, assignRev_append]
  simp

theorem length_assignActions (ms : List AtQueueMember) :
    (assignActions ms).length = ms.length := by
  induction ms with
  | nil => rfl
  | cons m rest ih => rw [assignActions_cons]; simp [ih]

theorem assignActions_getElem? (ms : List AtQueueMember) (j : Nat) :
    (assignActions ms)[j]? = ms[j]?.map (fun m =>
      { m with action := some (if (ms.length - 1 - j) % 2 = 0
          then EventType.off else EventType.on) }) := by
  induction ms generalizing j with
  | nil => simp [assignActions, assignRev]
  | cons m rest ih =>
    rw [assignActions_cons]
    cases j with
    | zero => simp
    | succ k =>
      have hh : (m :: rest).length - 1 - (k + 1) = rest.length - 1 - k := by
        simp only [List.length_cons]
        omega
      rw [List.getElem?_cons_succ, List.getElem?_cons_succ, ih, hh]

theorem assignActions_map_dt (ms : List AtQueueMember) :
    (assignActions ms).map AtQueueMember.dt = ms.map AtQueueMember.dt := by
  induction ms with
  | nil => rfl
  | cons m rest ih => rw [assignActions_cons]; simp [ih]

/-- Claim C6: `from_queue` sorts the members of one queue tag ascending by
timestamp and assigns polarity counting backward from the most recent
member: backward-even positions are OFF, backward-odd are ON; in
particular four members at times 10 < 20 < 30 < 40 come out as
ON, OFF, ON, OFF in ascending order (OFF, ON, OFF, ON read backward). -/
theorem from_queue_backward_parity (queue : String) (raw : List AtQueueMember) :
    List.Sorted (byKeyLE AtQueueMember.dt) (from_queue queue raw) ∧
    (∀ (j : Nat) (m : AtQueueMember), (from_queue queue raw)[j]? = some m →
      m.action = some (if ((from_queue queue raw).length - 1 - j) % 2 = 0
        then EventType.off else EventType.on)) ∧
    from_queue "q" [⟨1, 10, "q", none⟩, ⟨2, 20, "q", none⟩,
        ⟨3, 30, "q", none⟩, ⟨4, 40, "q", none⟩] =
      [⟨1, 10, "q", some EventType.on⟩, ⟨2, 20, "q", some EventType.off⟩,
       ⟨3, 30, "q", some EventType.on⟩, ⟨4, 40, "q", some EventType.off⟩] := by
  refine ⟨?_, ?_, by decide⟩
  · unfold from_queue
    have hs := List.sorted_insertionSort (byKeyLE AtQueueMember.dt)
      (raw.filter (fun m => m.queue == queue))
    have h1 : ((List.insertionSort (byKeyLE AtQueueMember.dt)
        (raw.filter (fun m => m.queue == queue))).map AtQueueMember.dt).Pairwise
          (· ≤ ·) := List.pairwise_map.mpr hs
    have h2 := assignActions_map_dt (List.insertionSort (byKeyLE AtQueueMember.dt)
      (raw.filter (fun m => m.queue == queue)))
    rw [← h2] at h1
    have h3 := List.pairwise_map.mp h1
    exact h3
  · intro j m hm
    unfold from_queue at hm ⊢
    rw [assignActions_getElem?] at hm
    rw [length_assignActions]
    cases hl : (List.insertionSort (byKeyLE AtQueueMember.dt)
        (raw.filter (fun m => m.queue == queue)))[j]? with
    | none => rw [hl] at hm; simp at hm
    | some m0 =>
      rw [hl] at hm
      have hm' := Option.some.inj hm
      rw [← hm']

/-- Witness for claim C6 at a concrete single-member queue: the only member
is at backward position 0 and is assigned OFF. -/
theorem from_queue_backward_parity_w :
    (from_queue "q" [⟨1, 10, "q", none⟩])[0]? =
      some ⟨1, 10, "q", some EventType.off⟩ ∧
    (⟨1, 10, "q", some EventType.off⟩ : AtQueueMember).action =
      some (if ((from_queue "q" [⟨1, 10, "q", none⟩]).length - 1 - 0) % 2 = 0
        then EventType.off else EventType.on) :=
  ⟨by decide, (from_queue_backward_parity "q" [⟨1, 10, "q", none⟩]).2.1 0 _ (by decide)⟩

/-- Claim C7: in the queue reconstruction used before slices are added
(spec-modelled `retrieve_sched`, built on the embedded `from_queue`), when
the chronologically earliest reconstructed event has inferred polarity OFF
it is discarded and every other event is kept unchanged; otherwise nothing
is discarded. -/
theorem retrieve_sched_drops_leading_off (queue : String)
    (raw : List AtQueueMember) (m : AtQueueMember) (rest : List AtQueueMember)
    (h : from_queue queue raw = m :: rest) :
    (m.action = some EventType.off → retrieve_sched queue raw = rest) ∧
    (m.action ≠ some EventType.off → retrieve_sched queue raw = m :: rest) := by
  constructor <;> intro hm <;> unfold retrieve_sched <;> rw [h] <;> dsimp only
  · rw [if_pos hm]
  · rw [if_neg hm]

/-- Witness for claim C7: a single live member is inferred OFF (backward
position 0) and is dropped, leaving an empty initial schedule. -/
theorem retrieve_sched_drops_leading_off_w :
    from_queue "q" [⟨1, 10, "q", none⟩] = [⟨1, 10, "q", some EventType.off⟩] ∧
    (⟨1, 10, "q", some EventType.off⟩ : AtQueueMember).action =
      some EventType.off ∧
    retrieve_sched "q" [⟨1, 10, "q", none⟩] = [] :=
  ⟨by decide, by decide,
    (retrieve_sched_drops_leading_off "q" [⟨1, 10, "q", none⟩]
      ⟨1, 10, "q", some EventType.off⟩ [] (by decide)).1 (by decide)⟩

/-- Claim C4 (code_bug evaluation): system UTC offset +60 min, market
offset +60 min, schedule [(ON, 1620), (OFF, 1680)] in market minutes (so
`day_start` is UTC minute 1380), and a queue member id 7 tagged "a" at UTC
minute 1390.  The member carries the session's tag and its timestamp is
`≥ day_start`, yet the upload issues no removal for it, because
`clear_queue_from` compares UTC member timestamps against the threshold
converted to system time (1440). -/
theorem upload_with_clear_misses_same_day_member :
    upload_with_clear "a" [⟨7, 1390, "a", none⟩]
        [(EventType.on, 1620), (EventType.off, 1680)] 60 60 =
      .ok [QueueOp.insert EventType.on 1560, QueueOp.insert EventType.off 1620] ∧
    market_time_to_utc (midnightOf 1620) 60 = 1380 ∧
    (1380 : Int) ≤ 1390 ∧
    QueueOp.remove 7 ∉
      [QueueOp.insert EventType.on 1560, QueueOp.insert EventType.off 1620] := by
  exact ⟨rfl, by decide, by decide, by decide⟩

/-- Claim C10: `finalize` on a non-empty price list succeeds, returning the
data sorted ascending by price with the weekday taken from the cheapest
item's timestamp; on the empty list it raises `IndexError`; and
`from_nordpool` with no column matching the region code reaches exactly
that empty-list `IndexError`. -/
theorem finalize_and_from_nordpool :
    (∀ data : List (Int × Int), data ≠ [] →
      ∃ l w, finalize data = .ok (l, w) ∧ l.Perm data ∧
        List.Pairwise (fun a b : Int × Int => a.2 ≤ b.2) l ∧
        ∃ hne : l ≠ [], w = weekday (l.head hne).1 ∧
          ∀ p ∈ data, (l.head hne).2 ≤ p.2) ∧
    finalize [] = .error FinalizeError.indexError ∧
    (∀ (tree : List NordRow) (region_code : String),
      (∀ row ∈ tree, ∀ c ∈ row.columns, c.1.toLower ≠ region_code.toLower) →
      from_nordpool tree region_code = .error FinalizeError.indexError) := by
  refine ⟨?_, rfl, ?_⟩
  · intro data hne
    have hlen : List.insertionSort (byKeyLE (fun p : Int × Int => p.2)) data ≠ [] := by
      intro hc
      apply hne
      apply List.eq_nil_of_length_eq_zero
      have := congrArg List.length hc
      simpa using this
    obtain ⟨x, rest, hx⟩ := List.exists_cons_of_ne_nil hlen
    have hs := List.sorted_insertionSort (byKeyLE (fun p : Int × Int => p.2)) data
    rw [hx] at hs
    refine ⟨x :: rest, weekday x.1, ?_, ?_, ?_, ?_⟩
    · unfold finalize
      rw [hx]
    · rw [← hx]
      exact List.perm_insertionSort _ data
    · exact hs
    · refine ⟨List.cons_ne_nil _ _, rfl, ?_⟩
      intro p hp
      have hmem : p ∈ x :: rest := by
        rw [← hx]
        exact ((List.perm_insertionSort _ data).mem_iff).mpr hp
      rcases List.mem_cons.mp hmem with h1 | h1
      · exact le_of_eq (by rw [h1, List.head_cons])
      · exact List.rel_of_sorted_cons hs p h1
  · intro tree region_code hreg
    unfold from_nordpool
    have hnil : (tree.flatMap (fun row =>
        row.columns.filterMap (fun column =>
          if column.1.toLower == region_code.toLower && !row.isExtraRow then
            some (row.startTime, column.2)
          else none))) = [] := by
      apply List.eq_nil_iff_forall_not_mem.mpr
      intro x hx
      rw [List.mem_flatMap] at hx
      obtain ⟨row, hrow, hx⟩ := hx
      rw [List.mem_filterMap] at hx
      obtain ⟨col, hcol, hsome⟩ := hx
      have hne2 := hreg row hrow col hcol
      simp [hne2] at hsome
    rw [hnil]
    rfl

/-- Witness for claim C10 at the two-item list with prices 7 and 3: the
cheaper item at timestamp 1440 (a Friday) comes first. -/
theorem finalize_and_from_nordpool_w :
    ([(0, 7), (1440, 3)] : List (Int × Int)) ≠ [] ∧
    ∃ l w, finalize [(0, 7), (1440, 3)] = .ok (l, w) ∧
      l.Perm [(0, 7), (1440, 3)] ∧
      List.Pairwise (fun a b : Int × Int => a.2 ≤ b.2) l ∧
      ∃ hne : l ≠ [], w = weekday (l.head hne).1 ∧
        ∀ p ∈ ([(0, 7), (1440, 3)] : List (Int × Int)), (l.head hne).2 ≤ p.2 :=
  ⟨by decide, finalize_and_from_nordpool.1 [(0, 7), (1440, 3)] (by decide)⟩
